import Mathlib

/-!
Verification of the declarative build-pipeline engine of `main.py`
(class `LatexBuilder`): the step registry, the planner (guard, name/tag
include/exclude, `--from`/`--until` range bounds), the executor with its
`stop`/`continue` error policy, the `--only-step` compatibility alias,
the `_split_csv` selector parser, and two representative actions
(`_do_replace_in_tex` and `_do_generate_main_tex`).

Python built-ins used by the source (`str.split`, `str.strip`,
`str.replace`, the `in` substring test, truthiness of optional strings)
are given explicit executable models at the character-list level.
-/

namespace SG4C

/-- Python truthiness of an optional string: `None` and `""` are falsy,
every other string is truthy. -/
def pyTruthy : Option String → Bool
  | none => false
  | some s => s != ""

/-- Shorthand for the whitespace test used by `str.strip`. -/
def isWS (c : Char) : Bool := c.isWhitespace

/-- Python `s.split(sep)` for a one-character separator: split on every
occurrence of the separator, keeping empty fields (so the result always
has one more element than there are separators). -/
def pySplit (sep : Char) : List Char → List (List Char)
  | [] => [[]]
  | c :: rest =>
    if c = sep then [] :: pySplit sep rest
    else
      match pySplit sep rest with
      | [] => [[c]]
      | t :: ts => (c :: t) :: ts

/-- Python `s.strip()`: drop whitespace characters from both ends. -/
def pyStrip (l : List Char) : List Char :=
  ((l.dropWhile isWS).reverse.dropWhile isWS).reverse

/-- `LatexBuilder._split_csv`: `None` or `""` give the empty set;
otherwise split on commas, strip each token, and drop tokens that are
empty after stripping.  The Python result is a `set`; it is modelled as
a list used only up to membership. -/
def splitCsv : Option String → List String
  | none => []
  | some s =>
    if s = "" then []
    else (((pySplit ',' s.data).map pyStrip).filter (fun t => t ≠ [])).map
      (fun t => String.mk t)

/-- The `--on-error` choice: `stop` (default) or `continue`. -/
inductive ErrorPolicy
  | stop
  | cont
deriving DecidableEq, Repr

/-- The run configuration produced by `set_args`: the parsed command-line
flags, read-only for the rest of the run. -/
structure Config where
  skipMd : Bool
  skipPdf : Bool
  only : Option String
  onlyStep : Option String
  skip : Option String
  fromStep : Option String
  untilStep : Option String
  dryRun : Bool
  onError : ErrorPolicy

/-- Default configuration: every flag absent, `--on-error stop`. -/
def baseCfg : Config := ⟨false, false, none, none, none, none, none, false, ErrorPolicy.stop⟩

/-- The compatibility shim at the end of `set_args`: if `--only` was not
given and `--only-step` is truthy, use the legacy value. -/
def resolveOnly (only onlyStep : Option String) : Option String :=
  if only = none ∧ pyTruthy onlyStep then onlyStep else only

/-- `set_args` post-processing of the parsed flags (the `--only-step`
alias rewrite); all other fields are stored unchanged. -/
def setArgs (c : Config) : Config :=
  { c with only := resolveOnly c.only c.onlyStep }

/-- A registered pipeline step: name, tags, the `when` guard (a predicate
over the run configuration) and the action.  The action is modelled as a
state transformer over an abstract state `σ` that either returns the new
state or raises an exception message. -/
structure Step (σ : Type) where
  name : String
  tags : List String
  guard : Config → Bool
  fn : σ → Except String σ

/-- The builder object: the step registry (`self.pipeline`), the parsed
arguments (`self.args`) and the abstract mutable state the actions act
on (the filesystem in the source). -/
structure Builder (σ : Type) where
  pipeline : List (Step σ)
  args : Config
  state : σ

/-- Name/tag selection used by the `--only`/`--skip` filters:
`(s.name in sel) or (s.tags & sel)`. -/
def stepMatches (sel : List String) (s : Step σ) : Bool :=
  sel.contains s.name || s.tags.any (fun t => sel.contains t)

/-- The `--from` range bound: if the flag is truthy, find the first step
of the current list with that name and drop everything before it; if the
name is not found, warn and keep the list unchanged. -/
def applyFrom : Option String → List (Step σ) → List (Step σ)
  | none, steps => steps
  | some n, steps =>
    if n = "" then steps
    else
      match steps.findIdx? (fun s => s.name == n) with
      | some idx => steps.drop idx
      | none => steps

/-- The `--until` range bound: if the flag is truthy, find the first step
of the current list with that name and drop everything after it
(inclusive of the match); if the name is not found, warn and keep the
list unchanged. -/
def applyUntil : Option String → List (Step σ) → List (Step σ)
  | none, steps => steps
  | some n, steps =>
    if n = "" then steps
    else
      match steps.findIdx? (fun s => s.name == n) with
      | some idx => steps.take (idx + 1)
      | none => steps

/-- The planning phase of `LatexBuilder.run` (lines 274-298): guard
filter, then `--only`, then `--skip`, then the `--from`/`--until` range
bounds, in that order. -/
def planSteps (cfg : Config) (pipeline : List (Step σ)) : List (Step σ) :=
  let steps := pipeline.filter (fun s => s.guard cfg)
  let only := splitCsv cfg.only
  let skip := splitCsv cfg.skip
  let steps := if only = [] then steps else steps.filter (fun s => stepMatches only s)
  let steps := if skip = [] then steps else steps.filter (fun s => !stepMatches skip s)
  let steps := applyFrom cfg.fromStep steps
  applyUntil cfg.untilStep steps

/-- What the executor records about one executed step. -/
inductive StepResult
  | ok
  | failed (msg : String)
deriving DecidableEq, Repr

/-- The execution loop of `LatexBuilder.run` (lines 312-321): run each
planned step's action in order; a raising action is logged as failed and
either execution continues with the next step (`continue` policy) or the
exception is re-raised (`stop` policy).  Returns the execution trace,
the final state, and the re-raised exception if any. -/
def execLoop (policy : ErrorPolicy) : List (Step σ) → σ → List (String × StepResult) × σ × Option String
  | [], st => ([], st, none)
  | s :: rest, st =>
    match s.fn st with
    | Except.ok newSt =>
      let r := execLoop policy rest newSt
      ((s.name, StepResult.ok) :: r.1, r.2.1, r.2.2)
    | Except.error msg =>
      match policy with
      | ErrorPolicy.cont =>
        let r := execLoop policy rest st
        ((s.name, StepResult.failed msg) :: r.1, r.2.1, r.2.2)
      | ErrorPolicy.stop => ([(s.name, StepResult.failed msg)], st, some msg)

/-- The observable outcome of one `run()` call. -/
inductive RunOutcome
  | dryRun (planNames : List String)
  | completed (trace : List (String × StepResult))
  | raised (msg : String) (trace : List (String × StepResult))

/-- `LatexBuilder.run`: compute the plan; under `--dry-run` print it and
return without executing anything; otherwise execute the plan under the
configured error policy.  The Python method returns `self`, so the
resulting builder is returned alongside the outcome (also when the
exception propagates, to expose the post-state). -/
def runB (b : Builder σ) : RunOutcome × Builder σ :=
  let steps := planSteps b.args b.pipeline
  if b.args.dryRun = true then
    (RunOutcome.dryRun (steps.map Step.name), b)
  else
    let r := execLoop b.args.onError steps b.state
    match r.2.2 with
    | none => (RunOutcome.completed r.1, { b with state := r.2.1 })
    | some m => (RunOutcome.raised m r.1, { b with state := r.2.1 })

/-- Process exit status: an uncaught re-raised exception terminates the
interpreter with a non-zero status; a completed run or a dry run exits
with status zero. -/
def exitCode : RunOutcome → Nat
  | RunOutcome.raised _ _ => 1
  | _ => 0

/-- Python `pattern in text`: substring containment (the empty pattern is
contained in every string). -/
def pyIn (pat text : String) : Bool :=
  text.data.tails.any (fun t => pat.data.isPrefixOf t)

/-- One pass of Python `str.replace`, scanning left to right and
replacing non-overlapping occurrences; after a replacement the scan
resumes after the consumed occurrence.  The fuel argument (instantiated
with the text length) only makes the recursion structural: each step
consumes at least one character, so the fuel is never exhausted. -/
def pyReplaceGo (pat rep : List Char) : Nat → List Char → List Char
  | _, [] => []
  | 0, rest => rest
  | fuel + 1, c :: rest =>
    if pat.isPrefixOf (c :: rest) then
      rep ++ pyReplaceGo pat rep fuel ((c :: rest).drop pat.length)
    else
      c :: pyReplaceGo pat rep fuel rest

/-- Python `s.replace(pat, rep)`.  The empty pattern is special-cased as
in CPython: the replacement is inserted before every character and at
the end. -/
def pyReplace (s pat rep : String) : String :=
  if pat.data = [] then
    String.mk (rep.data ++ s.data.foldr (fun c acc => c :: (rep.data ++ acc)) [])
  else
    String.mk (pyReplaceGo pat.data rep.data s.data.length s.data)

/-- `LatexBuilder._do_replace_in_tex` (lines 164-173), with the
directory of `.tex` files under `LATEX_DIR` modelled as a list of
(path, content) pairs: each file containing the pattern is rewritten
with `str.replace` applied and counted; the other files are untouched.
Returns the resulting files and the reported modified count. -/
def doReplaceInTex (pat rep : String) : List (String × String) → List (String × String) × Nat
  | [] => ([], 0)
  | f :: rest =>
    let r := doReplaceInTex pat rep rest
    if pyIn pat f.2 then ((f.1, pyReplace f.2 pat rep) :: r.1, r.2 + 1)
    else (f :: r.1, r.2)

/-- Strict code-point comparison of character lists (the lexicographic
ordering Python uses on strings). -/
def strLtChars : List Char → List Char → Bool
  | [], [] => false
  | [], _ :: _ => true
  | _ :: _, [] => false
  | a :: as, b :: bs =>
    if a.toNat < b.toNat then true
    else if b.toNat < a.toNat then false
    else strLtChars as bs

/-- Non-strict code-point comparison of strings. -/
def strLe (a b : String) : Bool := !strLtChars b.data a.data

/-- Insert a string into an ascending list (helper for `sortAsc`). -/
def insertAsc (x : String) : List String → List String
  | [] => [x]
  | y :: rest => if strLe x y then x :: y :: rest else y :: insertAsc x rest

/-- Insertion sort on strings, modelling Python `sorted` over the globbed
chapter files. -/
def sortAsc : List String → List String
  | [] => []
  | x :: rest => insertAsc x (sortAsc rest)

/-- The slice of the filesystem `_do_generate_main_tex` touches: the
optional template `themes/main.tex`, the stems of the generated
`latex/chapters/*.tex` fragments, and the destination `latex/main.tex`. -/
structure TexFS where
  themesMain : Option String
  chapterStems : List String
  latexMain : Option String
deriving DecidableEq, Repr

/-- The marker comment of the `main.tex` template. -/
def marker : String := "% 文章导入"

/-- The `\input` line generated for one chapter stem. -/
def chapterInputLine (stem : String) : String :=
  "\\input\x7bchapters/" ++ stem ++ "\x7d\n\\vspace*\x7b1cm\x7d"

/-- The error message of the missing-template `FileNotFoundError`. -/
def missingTemplateMsg : String := "未找到 themes/main.tex 模板文件。"

/-- `LatexBuilder._do_generate_main_tex` (lines 203-227): raise a
file-not-found error when `themes/main.tex` is absent (before anything
is written); otherwise build the chapter `\input` block from the sorted
fragments, splice it in at the marker comment (or append it with a
warning when the marker is absent) and write `latex/main.tex`.  Returns
the post-state and the raised error, if any. -/
def doGenerateMainTex (fs : TexFS) : TexFS × Option String :=
  match fs.themesMain with
  | none => (fs, some missingTemplateMsg)
  | some tmpl =>
    let block := String.intercalate "\n" ((sortAsc fs.chapterStems).map chapterInputLine)
    let mainText :=
      if pyIn marker tmpl then pyReplace tmpl marker (marker ++ "\n" ++ block)
      else tmpl ++ "\n" ++ block
    ({ fs with latexMain := some mainText }, none)

/-- A trivially-guarded step with a succeeding action, for concrete
examples. -/
def mkStep (n : String) : Step Unit :=
  ⟨n, [], fun _ => true, fun _ => Except.ok ()⟩

/-- Like `mkStep`, with tags. -/
def mkStepTagged (n : String) (tags : List String) : Step Unit :=
  ⟨n, tags, fun _ => true, fun _ => Except.ok ()⟩

/-- A trivially-guarded step whose action raises `msg`. -/
def mkFailStep (n : String) (msg : String) : Step Unit :=
  ⟨n, [], fun _ => true, fun _ => Except.error msg⟩

end SG4C

namespace SG4C

/-- With empty include/exclude sets and no range bounds, the planner is
exactly the guard filter. -/
lemma planSteps_empty (σ : Type) (cfg : Config) (reg : List (Step σ))
    (h₁ : splitCsv cfg.only = []) (h₂ : splitCsv cfg.skip = [])
    (h₃ : cfg.fromStep = none) (h₄ : cfg.untilStep = none) :
    planSteps cfg reg = reg.filter (fun s => s.guard cfg) := by
  simp only [planSteps, h₁, h₂, h₃, h₄, if_pos rfl]
  rfl

/-- Claim C1: with an empty include-set, an empty exclude-set, and no
range-start or range-end name, the plan is the registry sequence with
exactly the guard-failing steps removed, in registry order, with no
reordering and no duplication. -/
theorem claim_C1 (σ : Type) (cfg : Config) (reg : List (Step σ))
    (h₁ : splitCsv cfg.only = []) (h₂ : splitCsv cfg.skip = [])
    (h₃ : cfg.fromStep = none) (h₄ : cfg.untilStep = none) :
    planSteps cfg reg = reg.filter (fun s => s.guard cfg) :=
  planSteps_empty σ cfg reg h₁ h₂ h₃ h₄

/-- A pipeline step whose guard reads `--skip-md`, as
`convert_markdown_to_latex` does. -/
def mdGuardStep : Step Unit :=
  ⟨"convert_markdown_to_latex", ["md"], fun c => !c.skipMd, fun _ => Except.ok ()⟩

/-- Witness for C1 at a concrete registry: with `--skip-md` set, the
guard of the markdown step fails and the plan drops exactly that step. -/
theorem claim_C1_witness :
    planSteps { baseCfg with skipMd := true } [mdGuardStep, mkStep "build_pdf"]
      = [mkStep "build_pdf"] := by
  have h := claim_C1 Unit { baseCfg with skipMd := true } [mdGuardStep, mkStep "build_pdf"]
    rfl rfl rfl rfl
  exact h.trans rfl

/-- Claim C3: range bounds are resolved against the current filtered
list by first matching name.  On `[A,B,C,D,E]`, `--from B --until D`
yields `[B,C,D]`; with `B` absent the `--from` bound is ignored and
`--until D` leaves `[A,C,D]`; with duplicate names the first match wins;
and the bounds are resolved on the list that remains after the
name/tag filters. -/
theorem claim_C3 :
    (planSteps { baseCfg with fromStep := some "B", untilStep := some "D" }
        [mkStep "A", mkStep "B", mkStep "C", mkStep "D", mkStep "E"]
      = [mkStep "B", mkStep "C", mkStep "D"])
    ∧ (planSteps { baseCfg with fromStep := some "B", untilStep := some "D" }
        [mkStep "A", mkStep "C", mkStep "D", mkStep "E"]
      = [mkStep "A", mkStep "C", mkStep "D"])
    ∧ (planSteps { baseCfg with fromStep := some "B" }
        [mkStep "A", mkStep "B", mkStep "C", mkStepTagged "B" ["dup"], mkStep "D"]
      = [mkStep "B", mkStep "C", mkStepTagged "B" ["dup"], mkStep "D"])
    ∧ (planSteps { baseCfg with skip := some "C", fromStep := some "B", untilStep := some "D" }
        [mkStep "A", mkStep "B", mkStep "C", mkStep "D", mkStep "E"]
      = [mkStep "B", mkStep "D"]) :=
  ⟨rfl, rfl, rfl, rfl⟩

/-- Claim C9: `run()` never mutates the registry (nor the stored
arguments): whatever the outcome — dry run, completed run, or an
exception re-raised under `stop` — the returned builder carries the same
pipeline, in the same order, and the same configuration. -/
theorem claim_C9 (σ : Type) (b : Builder σ) :
    (runB b).2.pipeline = b.pipeline ∧ (runB b).2.args = b.args := by
  unfold runB
  by_cases h : b.args.dryRun = true
  · simp [h]
  · simp only [h, if_false, Bool.false_eq_true]
    cases (execLoop b.args.onError (planSteps b.args b.pipeline) b.state).2.2 <;>
      exact ⟨rfl, rfl⟩

/-- Claim C5: with the dry-run flag set, `run()` prints the plan,
invokes no action (the builder, including its action-visible state, is
returned unchanged), and the process exits with status zero. -/
theorem claim_C5 (σ : Type) (b : Builder σ) (h : b.args.dryRun = true) :
    runB b = (RunOutcome.dryRun ((planSteps b.args b.pipeline).map Step.name), b)
    ∧ exitCode (runB b).1 = 0 := by
  constructor
  · unfold runB
    simp [h]
  · unfold runB
    simp [h, exitCode]

/-- A concrete dry-run builder whose only step would raise if executed. -/
def dryBuilder : Builder Unit :=
  ⟨[mkFailStep "build_pdf" "boom"], { baseCfg with dryRun := true }, ()⟩

/-- Witness for C5: the dry run over a plan containing a failing step
still returns the unchanged builder and exit status zero. -/
theorem claim_C5_witness :
    runB dryBuilder = (RunOutcome.dryRun ["build_pdf"], dryBuilder)
    ∧ exitCode (runB dryBuilder).1 = 0 := by
  have h := claim_C5 Unit dryBuilder rfl
  exact ⟨h.1.trans rfl, h.2⟩

end SG4C

namespace SG4C

/-- Under the `continue` policy the executor visits every planned step in
order (the trace lists exactly the plan's names) and never re-raises. -/
lemma execLoop_cont_names (σ : Type) (steps : List (Step σ)) :
    ∀ st : σ, (execLoop ErrorPolicy.cont steps st).1.map Prod.fst = steps.map Step.name
      ∧ (execLoop ErrorPolicy.cont steps st).2.2 = none := by
  induction steps with
  | nil => intro st; simp [execLoop]
  | cons s rest ih =>
    intro st
    cases hfn : s.fn st with
    | ok newSt => simp [execLoop, hfn, (ih newSt).1, (ih newSt).2]
    | error msg => simp [execLoop, hfn, (ih st).1, (ih st).2]

/-- A `stop`-policy run that re-raises nothing behaves exactly like the
same run under `continue`. -/
lemma execLoop_stop_none_cont (σ : Type) (l : List (Step σ)) :
    ∀ (st : σ) (t : List (String × StepResult)) (s' : σ),
      execLoop ErrorPolicy.stop l st = (t, s', none) →
      execLoop ErrorPolicy.cont l st = (t, s', none) := by
  induction l with
  | nil => intro st t s' h; simpa [execLoop] using h
  | cons s rest ih =>
    intro st t s' h
    cases hfn : s.fn st with
    | ok newSt =>
      rcases hr : execLoop ErrorPolicy.stop rest newSt with ⟨t₀, s₀, e₀⟩
      simp only [execLoop, hfn, hr, Prod.mk.injEq] at h
      obtain ⟨h1, h2, h3⟩ := h
      subst h3
      simp only [execLoop, hfn, ih newSt t₀ s₀ hr, Prod.mk.injEq]
      exact ⟨h1, h2, trivial⟩
    | error msg =>
      simp only [execLoop, hfn, Prod.mk.injEq] at h
      exact absurd h.2.2 (by simp)

/-- Under `continue` the executor processes a concatenation by running
the first part and then the second part from the reached state. -/
lemma execLoop_cont_append (σ : Type) (l₁ : List (Step σ)) :
    ∀ (l₂ : List (Step σ)) (st : σ),
      execLoop ErrorPolicy.cont (l₁ ++ l₂) st
        = ((execLoop ErrorPolicy.cont l₁ st).1
              ++ (execLoop ErrorPolicy.cont l₂ (execLoop ErrorPolicy.cont l₁ st).2.1).1,
           (execLoop ErrorPolicy.cont l₂ (execLoop ErrorPolicy.cont l₁ st).2.1).2.1,
           (execLoop ErrorPolicy.cont l₂ (execLoop ErrorPolicy.cont l₁ st).2.1).2.2) := by
  induction l₁ with
  | nil => intro l₂ st; simp [execLoop]
  | cons s rest ih =>
    intro l₂ st
    cases hfn : s.fn st with
    | ok newSt => simp [execLoop, hfn, ih]
    | error msg => simp [execLoop, hfn, ih]

/-- Under `stop`, after a clean prefix the executor carries on with the
remainder from the reached state. -/
lemma execLoop_stop_append (σ : Type) (l₁ : List (Step σ)) :
    ∀ (st : σ) (t₁ : List (String × StepResult)) (s₁ : σ),
      execLoop ErrorPolicy.stop l₁ st = (t₁, s₁, none) →
      ∀ l₂ : List (Step σ),
        execLoop ErrorPolicy.stop (l₁ ++ l₂) st
          = (t₁ ++ (execLoop ErrorPolicy.stop l₂ s₁).1,
             (execLoop ErrorPolicy.stop l₂ s₁).2.1,
             (execLoop ErrorPolicy.stop l₂ s₁).2.2) := by
  induction l₁ with
  | nil =>
    intro st t₁ s₁ h l₂
    simp only [execLoop, Prod.mk.injEq] at h
    obtain ⟨h1, h2, h3⟩ := h
    subst h1; subst h2
    simp [execLoop]
  | cons s rest ih =>
    intro st t₁ s₁ h l₂
    cases hfn : s.fn st with
    | ok newSt =>
      rcases hr : execLoop ErrorPolicy.stop rest newSt with ⟨t₀, s₀, e₀⟩
      simp only [execLoop, hfn, hr, Prod.mk.injEq] at h
      obtain ⟨h1, h2, h3⟩ := h
      subst h3; subst h1; subst h2
      simp only [List.cons_append, execLoop, hfn]
      simp [ih newSt t₀ s₀ hr l₂]
    | error msg =>
      simp only [execLoop, hfn, Prod.mk.injEq] at h
      exact absurd h.2.2 (by simp)

end SG4C

namespace SG4C

/-- Claim C2: for a plan `pre ++ bad :: post` whose prefix `pre` runs
cleanly and whose step `bad` raises `msg`: under `--on-error continue`
the failing step is logged as failed, every subsequent step is still
executed (the trace covers the whole plan) and the run completes
normally with exit status zero; under `stop` the exception is re-raised,
no step after `bad` is executed, and the process exits non-zero. -/
theorem claim_C2 (σ : Type) (pre post : List (Step σ)) (bad : Step σ)
    (st s₁ : σ) (t₁ : List (String × StepResult)) (msg : String)
    (cfgC cfgS : Config)
    (hpre : execLoop ErrorPolicy.stop pre st = (t₁, s₁, none))
    (hbad : bad.fn s₁ = Except.error msg)
    (hCe : cfgC.onError = ErrorPolicy.cont) (hCd : cfgC.dryRun = false)
    (hCp : planSteps cfgC (pre ++ bad :: post) = pre ++ bad :: post)
    (hSe : cfgS.onError = ErrorPolicy.stop) (hSd : cfgS.dryRun = false)
    (hSp : planSteps cfgS (pre ++ bad :: post) = pre ++ bad :: post) :
    ((execLoop ErrorPolicy.cont (pre ++ bad :: post) st).1.map Prod.fst
        = (pre ++ bad :: post).map Step.name)
    ∧ ((execLoop ErrorPolicy.cont (pre ++ bad :: post) st).2.2 = none)
    ∧ ((execLoop ErrorPolicy.cont (pre ++ bad :: post) st).1
        = t₁ ++ (bad.name, StepResult.failed msg)
            :: (execLoop ErrorPolicy.cont post s₁).1)
    ∧ (execLoop ErrorPolicy.stop (pre ++ bad :: post) st
        = (t₁ ++ [(bad.name, StepResult.failed msg)], s₁, some msg))
    ∧ exitCode (runB ⟨pre ++ bad :: post, cfgC, st⟩).1 = 0
    ∧ exitCode (runB ⟨pre ++ bad :: post, cfgS, st⟩).1 = 1 := by
  have hnames := execLoop_cont_names σ (pre ++ bad :: post) st
  have hpreC := execLoop_stop_none_cont σ pre st t₁ s₁ hpre
  have h3 : (execLoop ErrorPolicy.cont (pre ++ bad :: post) st).1
      = t₁ ++ (bad.name, StepResult.failed msg)
          :: (execLoop ErrorPolicy.cont post s₁).1 := by
    rw [execLoop_cont_append σ pre (bad :: post) st, hpreC]
    simp [execLoop, hbad]
  have h4 : execLoop ErrorPolicy.stop (pre ++ bad :: post) st
      = (t₁ ++ [(bad.name, StepResult.failed msg)], s₁, some msg) := by
    rw [execLoop_stop_append σ pre st t₁ s₁ hpre (bad :: post)]
    simp [execLoop, hbad]
  refine ⟨hnames.1, hnames.2, h3, h4, ?_, ?_⟩
  · unfold runB
    simp only [hCd, hCp, hCe, Bool.false_eq_true, if_false]
    rcases he : (execLoop ErrorPolicy.cont (pre ++ bad :: post) st) with ⟨t, s', e⟩
    have : e = none := by
      have := hnames.2
      rw [he] at this
      exact this
    subst this
    simp [exitCode]
  · unfold runB
    simp only [hSd, hSp, hSe, Bool.false_eq_true, if_false, h4]
    simp [exitCode]

/-- Witness for C2 at the concrete plan `[a, bad, c]` where only `bad`
raises: the `stop` run stops at `bad` and re-raises, the `continue` run
executes all three steps, reports `bad` as failed, and exits zero. -/
theorem claim_C2_witness :
    (execLoop ErrorPolicy.stop [mkStep "a", mkFailStep "bad" "boom", mkStep "c"] ()
      = ([("a", StepResult.ok), ("bad", StepResult.failed "boom")], (), some "boom"))
    ∧ ((execLoop ErrorPolicy.cont [mkStep "a", mkFailStep "bad" "boom", mkStep "c"] ()).1
        = [("a", StepResult.ok), ("bad", StepResult.failed "boom"), ("c", StepResult.ok)])
    ∧ exitCode (runB ⟨[mkStep "a", mkFailStep "bad" "boom", mkStep "c"],
        { baseCfg with onError := ErrorPolicy.cont }, ()⟩).1 = 0
    ∧ exitCode (runB ⟨[mkStep "a", mkFailStep "bad" "boom", mkStep "c"],
        baseCfg, ()⟩).1 = 1 := by
  have h := claim_C2 Unit [mkStep "a"] [mkStep "c"] (mkFailStep "bad" "boom")
    () () [("a", StepResult.ok)] "boom"
    { baseCfg with onError := ErrorPolicy.cont } baseCfg
    rfl rfl rfl rfl rfl rfl rfl rfl
  exact ⟨h.2.2.2.1, h.2.2.1.trans rfl, h.2.2.2.2.1, h.2.2.2.2.2⟩

end SG4C

namespace SG4C

/-- `stepMatches` holds exactly when the step's name is in the selection
set or its tag set intersects it. -/
lemma stepMatches_iff (sel : List String) (s : Step σ) :
    stepMatches sel s = true ↔ (s.name ∈ sel ∨ ∃ t ∈ s.tags, t ∈ sel) := by
  simp [stepMatches]

/-- `stepMatches` fails exactly when the step's name is outside the
selection set and no tag of the step is in it. -/
lemma stepMatches_eq_false (sel : List String) (s : Step σ) :
    stepMatches sel s = false ↔ (s.name ∉ sel ∧ ∀ t ∈ s.tags, t ∉ sel) := by
  simp [stepMatches]

/-- Claim C4: with no range bounds, the plan is a sub-sequence of the
registry (order preserved) and a step is planned exactly when its guard
holds, it passes the include filter whenever the include-set is
non-empty (name in the set or tag-set intersection), and it is not hit
by the exclude filter whenever the exclude-set is non-empty; include is
applied before exclude. -/
theorem claim_C4 (σ : Type) (cfg : Config) (reg : List (Step σ))
    (h₁ : cfg.fromStep = none) (h₂ : cfg.untilStep = none) :
    List.Sublist (planSteps cfg reg) reg
    ∧ ∀ s : Step σ, s ∈ planSteps cfg reg ↔
        (s ∈ reg ∧ s.guard cfg = true
          ∧ (splitCsv cfg.only ≠ [] →
              (s.name ∈ splitCsv cfg.only ∨ ∃ t ∈ s.tags, t ∈ splitCsv cfg.only))
          ∧ (splitCsv cfg.skip ≠ [] →
              ¬(s.name ∈ splitCsv cfg.skip ∨ ∃ t ∈ s.tags, t ∈ splitCsv cfg.skip))) := by
  have hplan : planSteps cfg reg =
      (if splitCsv cfg.skip = []
        then (if splitCsv cfg.only = []
          then reg.filter (fun s => s.guard cfg)
          else (reg.filter (fun s => s.guard cfg)).filter
            (fun s => stepMatches (splitCsv cfg.only) s))
        else (if splitCsv cfg.only = []
          then reg.filter (fun s => s.guard cfg)
          else (reg.filter (fun s => s.guard cfg)).filter
            (fun s => stepMatches (splitCsv cfg.only) s)).filter
          (fun s => !stepMatches (splitCsv cfg.skip) s)) := by
    simp only [planSteps, h₁, h₂, applyFrom, applyUntil]
  rw [hplan]
  constructor
  · by_cases ho : splitCsv cfg.only = [] <;> by_cases hk : splitCsv cfg.skip = [] <;>
      simp only [ho, hk, if_pos, if_neg, ite_true, ite_false] <;>
      first
        | exact List.filter_sublist _
        | exact (List.filter_sublist _).trans (List.filter_sublist _)
        | exact ((List.filter_sublist _).trans (List.filter_sublist _)).trans
            (List.filter_sublist _)
  · intro s
    by_cases ho : splitCsv cfg.only = [] <;> by_cases hk : splitCsv cfg.skip = [] <;>
      simp [ho, hk, List.mem_filter, stepMatches_iff, stepMatches_eq_false, and_assoc] <;>
      intro _ <;> tauto

end SG4C

namespace SG4C

/-- Configuration of the run `--only md,build_pdf --skip cleanup`. -/
def onlySkipCfg : Config := { baseCfg with only := some "md,build_pdf", skip := some "cleanup" }

/-- Registry used by the include/exclude witness. -/
def onlySkipReg : List (Step Unit) :=
  [mkStepTagged "convert" ["md"], mkStepTagged "clean_temp" ["cleanup"],
   mkStep "build_pdf", mkStep "other"]

/-- Witness for C4: under `--only md,build_pdf --skip cleanup` the plan
is a sub-sequence of the registry, the step tagged `md` is kept (tag
intersection), and the plan computes to exactly the matched steps. -/
theorem claim_C4_witness :
    List.Sublist (planSteps onlySkipCfg onlySkipReg) onlySkipReg
    ∧ mkStepTagged "convert" ["md"] ∈ planSteps onlySkipCfg onlySkipReg
    ∧ planSteps onlySkipCfg onlySkipReg = [mkStepTagged "convert" ["md"], mkStep "build_pdf"] := by
  have h := claim_C4 Unit onlySkipCfg onlySkipReg rfl rfl
  refine ⟨h.1, (h.2 _).mpr ⟨?_, rfl, ?_, ?_⟩, rfl⟩
  · simp [onlySkipReg]
  · intro _
    exact Or.inr ⟨"md", by simp [mkStepTagged], by decide⟩
  · intro _
    simp [mkStepTagged]
    decide

end SG4C

namespace SG4C

/-- The planner only reads the configuration through the guards, the
parsed include/exclude sets, and the two range bounds. -/
lemma planSteps_congr (σ : Type) (c₁ c₂ : Config) (reg : List (Step σ))
    (hg : ∀ s ∈ reg, s.guard c₁ = s.guard c₂)
    (ho : splitCsv c₁.only = splitCsv c₂.only)
    (hk : splitCsv c₁.skip = splitCsv c₂.skip)
    (hf : c₁.fromStep = c₂.fromStep) (hu : c₁.untilStep = c₂.untilStep) :
    planSteps c₁ reg = planSteps c₂ reg := by
  simp only [planSteps, ho, hk, hf, hu, List.filter_congr hg]

/-- Two runs over the same registry and state whose configurations agree
on the dry-run flag, the error policy and the resulting plan produce the
same outcome and the same final state. -/
lemma runB_congr (σ : Type) (reg : List (Step σ)) (st : σ) (x y : Config)
    (hd : x.dryRun = y.dryRun) (he : x.onError = y.onError)
    (hp : planSteps x reg = planSteps y reg) :
    (runB ⟨reg, x, st⟩).1 = (runB ⟨reg, y, st⟩).1
    ∧ (runB ⟨reg, x, st⟩).2.state = (runB ⟨reg, y, st⟩).2.state := by
  by_cases hdry : y.dryRun = true
  · simp [runB, hp, hd, he, hdry]
  · simp only [runB, hp, hd, he, hdry, if_false, Bool.false_eq_true]
    rcases (execLoop y.onError (planSteps y reg) st).2.2 <;> simp

/-- Claim C8: `--only-step v` without `--only` yields the same plan,
the same run outcome, and the same final state as `--only v`; and when
both flags are supplied, the stored value is that of `--only` and the
legacy flag is ignored.  The guards of this program's registered steps
read only `--skip-md`/`--skip-pdf`, which the hypothesis `hg` records. -/
theorem claim_C8 (σ : Type) (v : String) (cfg : Config) (reg : List (Step σ)) (st : σ)
    (hg : ∀ s ∈ reg, ∀ c₁ c₂ : Config,
      c₁.skipMd = c₂.skipMd → c₁.skipPdf = c₂.skipPdf → s.guard c₁ = s.guard c₂) :
    planSteps (setArgs { cfg with only := none, onlyStep := some v }) reg
      = planSteps (setArgs { cfg with only := some v, onlyStep := none }) reg
    ∧ (runB ⟨reg, setArgs { cfg with only := none, onlyStep := some v }, st⟩).1
      = (runB ⟨reg, setArgs { cfg with only := some v, onlyStep := none }, st⟩).1
    ∧ (runB ⟨reg, setArgs { cfg with only := none, onlyStep := some v }, st⟩).2.state
      = (runB ⟨reg, setArgs { cfg with only := some v, onlyStep := none }, st⟩).2.state
    ∧ (∀ w u : String, (setArgs { cfg with only := some w, onlyStep := some u }).only = some w) := by
  have hsplit : splitCsv (setArgs { cfg with only := none, onlyStep := some v }).only
      = splitCsv (setArgs { cfg with only := some v, onlyStep := none }).only := by
    by_cases hv : v = ""
    · subst hv
      rfl
    · have hA : (setArgs { cfg with only := none, onlyStep := some v }).only = some v := by
        simp [setArgs, resolveOnly, pyTruthy, hv]
      have hB : (setArgs { cfg with only := some v, onlyStep := none }).only = some v := by
        simp [setArgs, resolveOnly]
      rw [hA, hB]
  have hguards : ∀ s ∈ reg,
      s.guard (setArgs { cfg with only := none, onlyStep := some v })
        = s.guard (setArgs { cfg with only := some v, onlyStep := none }) :=
    fun s hs => hg s hs _ _ rfl rfl
  have hplan := planSteps_congr σ _ _ reg hguards hsplit rfl rfl rfl
  have hrun := runB_congr σ reg st
    (setArgs { cfg with only := none, onlyStep := some v })
    (setArgs { cfg with only := some v, onlyStep := none }) rfl rfl hplan
  exact ⟨hplan, hrun.1, hrun.2, fun w u => by simp [setArgs, resolveOnly]⟩

/-- Witness for C8 at `v = "md"` over a registry whose guard reads
`--skip-md` (as the real pipeline's guards do): the legacy spelling
selects the same plan as `--only md`. -/
theorem claim_C8_witness :
    planSteps (setArgs { baseCfg with only := none, onlyStep := some "md" })
        [mdGuardStep, mkStep "clean_temp"]
      = planSteps (setArgs { baseCfg with only := some "md", onlyStep := none })
        [mdGuardStep, mkStep "clean_temp"]
    ∧ planSteps (setArgs { baseCfg with only := none, onlyStep := some "md" })
        [mdGuardStep, mkStep "clean_temp"] = [mdGuardStep] := by
  have h := claim_C8 Unit "md" baseCfg [mdGuardStep, mkStep "clean_temp"] ()
    (by
      intro s hs c₁ c₂ h1 h2
      simp only [List.mem_cons, List.mem_singleton] at hs
      rcases hs with hs | hs | hs
      · subst hs
        show (!c₁.skipMd) = (!c₂.skipMd)
        rw [h1]
      · subst hs
        rfl
      · cases hs)
  exact ⟨h.1, rfl⟩

end SG4C

namespace SG4C

/-- Counterexample to claim C6 as stated: with pattern `"ab"`,
replacement `"a"` and a single file containing `"abb"`, the action
reports one modified file but the rewritten content `"ab"` still
contains the pattern — the replacement re-formed an occurrence, so it is
not true that no occurrence of the pattern remains after the action. -/
theorem claim_C6_counterexample :
    (doReplaceInTex "ab" "a" [("chapter.tex", "abb")]).2 = 1
    ∧ (doReplaceInTex "ab" "a" [("chapter.tex", "abb")]).1 = [("chapter.tex", "ab")]
    ∧ pyIn "ab" "ab" = true := by decide

/-- Claim C6, amended: the text-substitution action reports exactly `M`
modified files, where `M` is the number of files containing the pattern;
each such file's content becomes one left-to-right non-overlapping
`str.replace` pass over it (which can leave occurrences of the pattern
when the replacement re-forms it with adjacent text); and the files not
containing the pattern are not rewritten. -/
theorem claim_C6 (pat rep : String) (files : List (String × String)) :
    (doReplaceInTex pat rep files).2 = (files.filter (fun f => pyIn pat f.2)).length
    ∧ (doReplaceInTex pat rep files).1
      = files.map (fun f => if pyIn pat f.2 then (f.1, pyReplace f.2 pat rep) else f) := by
  induction files with
  | nil => exact ⟨rfl, rfl⟩
  | cons f rest ih =>
    by_cases hf : pyIn pat f.2 = true
    · simp [doReplaceInTex, List.filter_cons, hf, ih.1, ih.2]
    · simp [doReplaceInTex, List.filter_cons, hf, ih.1, ih.2]

/-- Claim C7: the master-document assembly raises the
missing-template file-not-found error exactly when `themes/main.tex` is
absent; on this error the filesystem state is returned unchanged (the
destination `main.tex` is not written, since the error is raised before
the write); when the template is present no error is raised and the
destination is written. -/
theorem claim_C7 (fs : TexFS) :
    ((doGenerateMainTex fs).2.isSome ↔ fs.themesMain = none)
    ∧ (fs.themesMain = none → doGenerateMainTex fs = (fs, some missingTemplateMsg))
    ∧ (∀ tmpl, fs.themesMain = some tmpl →
        (doGenerateMainTex fs).2 = none
        ∧ ∃ txt, (doGenerateMainTex fs).1.latexMain = some txt) := by
  rcases h : fs.themesMain with _ | tmpl
  · refine ⟨?_, fun _ => ?_, fun tmpl htm => ?_⟩
    · simp [doGenerateMainTex, h]
    · simp [doGenerateMainTex, h]
    · cases htm
  · refine ⟨?_, fun hn => ?_, fun tmpl₂ htm => ?_⟩
    · simp [doGenerateMainTex, h]
    · cases hn
    · constructor
      · simp [doGenerateMainTex, h]
      · simp only [doGenerateMainTex, h]
        exact ⟨_, rfl⟩

/-- Witness for C7: with the template absent, the action returns the
unchanged filesystem together with the file-not-found error. -/
theorem claim_C7_witness :
    doGenerateMainTex ⟨none, ["chapterA"], none⟩
      = (⟨none, ["chapterA"], none⟩, some missingTemplateMsg) :=
  (claim_C7 ⟨none, ["chapterA"], none⟩).2.1 rfl

end SG4C

namespace SG4C

/-- `dropWhile` yields either the empty list or a list whose head fails
the predicate. -/
lemma dropWhile_shape {α : Type} (p : α → Bool) :
    ∀ l : List α, l.dropWhile p = [] ∨ ∃ c t, l.dropWhile p = c :: t ∧ p c = false := by
  intro l
  induction l with
  | nil => exact Or.inl rfl
  | cons a rest ih =>
    rw [List.dropWhile_cons]
    by_cases hp : p a = true
    · rw [if_pos hp]
      exact ih
    · rw [if_neg hp]
      exact Or.inr ⟨a, rest, rfl, by simpa using hp⟩

/-- `dropWhile` leaves a list whose head fails the predicate unchanged. -/
lemma dropWhile_cons_false {α : Type} (p : α → Bool) (c : α) (t : List α)
    (h : p c = false) : (c :: t).dropWhile p = c :: t := by
  rw [List.dropWhile_cons, if_neg]
  simp [h]

/-- `dropWhile` is idempotent. -/
lemma dropWhile_idem {α : Type} (p : α → Bool) (l : List α) :
    (l.dropWhile p).dropWhile p = l.dropWhile p := by
  rcases dropWhile_shape p l with h | ⟨c, t, h, hc⟩
  · rw [h]
    rfl
  · rw [h]
    exact dropWhile_cons_false p c t hc

/-- A non-empty `dropWhile` result keeps the last element of the list. -/
lemma getLast?_dropWhile_ne {α : Type} (p : α → Bool) :
    ∀ l : List α, l.dropWhile p ≠ [] → (l.dropWhile p).getLast? = l.getLast? := by
  intro l
  induction l with
  | nil => intro h; exact absurd rfl h
  | cons a rest ih =>
    intro hne
    rw [List.dropWhile_cons] at hne ⊢
    by_cases hp : p a = true
    · rw [if_pos hp] at hne ⊢
      rw [ih hne]
      have hrest : rest ≠ [] := by
        intro h0
        subst h0
        exact hne rfl
      cases rest with
      | nil => exact absurd rfl hrest
      | cons b t => exact List.getLast?_cons_cons.symm
    · rw [if_neg hp]

/-- Stripping a list of whitespace characters yields the empty list. -/
lemma pyStrip_ws (l : List Char) (h : ∀ c ∈ l, isWS c) : pyStrip l = [] := by
  unfold pyStrip
  rw [List.dropWhile_eq_nil_iff.mpr h]
  rfl

/-- `pyStrip` is idempotent: a stripped token has no leading or trailing
whitespace left to remove. -/
lemma pyStrip_idem (l : List Char) : pyStrip (pyStrip l) = pyStrip l := by
  by_cases hv : (l.dropWhile isWS).reverse.dropWhile isWS = []
  · unfold pyStrip
    rw [hv]
    simp
  · rcases dropWhile_shape isWS l with hdn | ⟨c, t, hdc, hcw⟩
    · exact absurd (by rw [hdn]; rfl) hv
    · have hvl : ((l.dropWhile isWS).reverse.dropWhile isWS).getLast?
          = (l.dropWhile isWS).reverse.getLast? := getLast?_dropWhile_ne isWS _ hv
      have hrl : (l.dropWhile isWS).reverse.getLast? = (l.dropWhile isWS).head? :=
        List.getLast?_reverse _
      have hhead : ((l.dropWhile isWS).reverse.dropWhile isWS).reverse.head? = some c := by
        rw [List.head?_reverse, hvl, hrl, hdc]
        rfl
      obtain ⟨v₁, hv₁⟩ : ∃ v₁, ((l.dropWhile isWS).reverse.dropWhile isWS).reverse = c :: v₁ := by
        cases hvr : ((l.dropWhile isWS).reverse.dropWhile isWS).reverse with
        | nil => rw [hvr] at hhead; cases hhead
        | cons x xs =>
          rw [hvr] at hhead
          injection hhead with hx
          exact ⟨xs, by rw [hx]⟩
      unfold pyStrip
      rw [hv₁, dropWhile_cons_false isWS c v₁ hcw]
      have hback : (c :: v₁).reverse = (l.dropWhile isWS).reverse.dropWhile isWS := by
        rw [← hv₁, List.reverse_reverse]
      rw [hback, dropWhile_idem isWS ((l.dropWhile isWS).reverse)]
      exact hv₁

/-- Every character of every field produced by `pySplit` comes from the
input and is not the separator. -/
lemma pySplit_chars (sep : Char) :
    ∀ l : List Char, ∀ t ∈ pySplit sep l, ∀ c ∈ t, c ∈ l ∧ ¬c = sep := by
  intro l
  induction l with
  | nil =>
    intro t ht c hc
    simp only [pySplit, List.mem_singleton] at ht
    subst ht
    cases hc
  | cons a rest ih =>
    intro t ht c hc
    by_cases ha : a = sep
    · simp only [pySplit, if_pos ha] at ht
      rcases List.mem_cons.mp ht with h | h
      · subst h
        cases hc
      · have := ih t h c hc
        exact ⟨List.mem_cons_of_mem _ this.1, this.2⟩
    · cases hr : pySplit sep rest with
      | nil =>
        simp only [pySplit, if_neg ha, hr, List.mem_singleton] at ht
        subst ht
        rcases List.mem_singleton.mp hc with rfl
        exact ⟨List.mem_cons_self _ _, ha⟩
      | cons t₀ ts =>
        simp only [pySplit, if_neg ha, hr] at ht
        rcases List.mem_cons.mp ht with h | h
        · subst h
          rcases List.mem_cons.mp hc with h' | h'
          · subst h'
            exact ⟨List.mem_cons_self _ _, ha⟩
          · have := ih t₀ (by rw [hr]; exact List.mem_cons_self _ _) c h'
            exact ⟨List.mem_cons_of_mem _ this.1, this.2⟩
        · have := ih t (by rw [hr]; exact List.mem_cons_of_mem _ h) c hc
          exact ⟨List.mem_cons_of_mem _ this.1, this.2⟩

/-- A selector string made only of commas and whitespace parses to the
empty selection set. -/
lemma splitCsv_ws_empty (s : String) (h : ∀ c ∈ s.data, c = ',' ∨ isWS c) :
    splitCsv (some s) = [] := by
  simp only [splitCsv]
  by_cases hs : s = ""
  · rw [if_pos hs]
  · rw [if_neg hs]
    have key : ((pySplit ',' s.data).map pyStrip).filter (fun t => t ≠ []) = [] := by
      rw [List.filter_eq_nil_iff]
      intro u hu
      rcases List.mem_map.mp hu with ⟨w, hw, rfl⟩
      have hws : ∀ c ∈ w, isWS c := by
        intro c hc
        rcases pySplit_chars ',' s.data w hw c hc with ⟨hcs, hne⟩
        rcases h c hcs with h' | h'
        · exact absurd h' hne
        · exact h'
      simp [pyStrip_ws w hws]
    rw [key]
    rfl

/-- Every token returned by `_split_csv` is non-empty and already
stripped of surrounding whitespace. -/
lemma splitCsv_tokens (s : String) :
    ∀ t ∈ splitCsv (some s), t ≠ "" ∧ pyStrip t.data = t.data := by
  intro t ht
  simp only [splitCsv] at ht
  by_cases hs : s = ""
  · rw [if_pos hs] at ht
    cases ht
  · rw [if_neg hs] at ht
    rcases List.mem_map.mp ht with ⟨u, hu, rfl⟩
    rcases List.mem_filter.mp hu with ⟨humem, hune⟩
    rcases List.mem_map.mp humem with ⟨w, hw, rfl⟩
    have hne : pyStrip w ≠ [] := by simpa using hune
    refine ⟨?_, pyStrip_idem w⟩
    intro h0
    apply hne
    have : (String.mk (pyStrip w)).data = ("" : String).data := by rw [h0]
    simpa using this

/-- Claim C10: `_split_csv` of an absent flag is the empty set; a string
of commas and whitespace parses to the empty set; every parsed token is
non-empty and stripped of surrounding whitespace; and empty include and
exclude sets apply no filtering at all — the plan keeps every
guard-passing step instead of selecting no steps. -/
theorem claim_C10 :
    splitCsv none = []
    ∧ (∀ s : String, (∀ c ∈ s.data, c = ',' ∨ isWS c) → splitCsv (some s) = [])
    ∧ (∀ s : String, ∀ t ∈ splitCsv (some s), t ≠ "" ∧ pyStrip t.data = t.data)
    ∧ (∀ (cfg : Config) (reg : List (Step Unit)),
        splitCsv cfg.only = [] → splitCsv cfg.skip = [] →
        cfg.fromStep = none → cfg.untilStep = none →
        planSteps cfg reg = reg.filter (fun s => s.guard cfg)) :=
  ⟨rfl, splitCsv_ws_empty, splitCsv_tokens,
    fun cfg reg h1 h2 h3 h4 => planSteps_empty Unit cfg reg h1 h2 h3 h4⟩

/-- Witness for C10: a flag value consisting only of commas and blanks
parses to the empty selection set, and parsed tokens of a concrete flag
value are stripped and non-empty. -/
theorem claim_C10_witness :
    splitCsv (some " ,,  ,") = []
    ∧ ("md" ≠ "" ∧ pyStrip ("md" : String).data = ("md" : String).data) :=
  ⟨claim_C10.2.1 " ,,  ," (by decide),
    claim_C10.2.2.1 " md ,cleanup" "md" (by decide)⟩

end SG4C
